import Mathlib

/-!
Verification development for the programmatic-mcp-prototype repository.

Strings of the TypeScript source are modelled as `List Char`; JavaScript string
operations (`indexOf`, `slice`, `split`, `join`, `startsWith`, `includes`,
`toLowerCase`, `replace`) are embedded as total functions on `List Char`.
-/

namespace MCPProto

/-- Str is the model of a JavaScript string: its list of characters. -/
abbrev Str := List Char

/-- Converts a Lean string literal into the `List Char` model. -/
def str (s : String) : Str := s.data

/-- The two-character namespace separator `__` used for qualified tool names. -/
def sep : Str := ['_', '_']

/-- Tests whether a string begins with the separator `__`. -/
def startsWithSep : Str → Bool
  | c :: d :: _ => c == '_' && d == '_'
  | _ => false

/-- Model of `toolName.indexOf('__')` from `MCPProxyServer.handleExecuteTool`
(src/src/mcp-proxy/server.ts line 338): the index of the first occurrence of
`__`, or `none` where JavaScript returns `-1`. -/
def idxOfSep : Str → Option Nat
  | [] => none
  | c :: cs => if startsWithSep (c :: cs) then some 0 else (idxOfSep cs).map (· + 1)

/-- Model of the host proxy's dispatch parsing (src/src/mcp-proxy/server.ts
lines 338-340): `serverName = toolName.slice(0, i)` and
`actualToolName = toolName.slice(i + 2)` where `i = toolName.indexOf('__')`.
When `indexOf` returns `-1`, JavaScript's `slice(0, -1)` drops the last
character and `slice(1)` drops the first; that branch is modelled faithfully. -/
def hostSplit (s : Str) : Str × Str :=
  match idxOfSep s with
  | some i => (s.take i, s.drop (i + 2))
  | none => (s.dropLast, s.drop 1)

/-- Helper prepending a character to the first segment of a split result. -/
def consHead (c : Char) : List Str → List Str
  | [] => [[c]]
  | h :: t => (c :: h) :: t

/-- Model of `toolName.split('__')` from `ToolProxy.setupHandlers`
(src/model_accessible_files/client.ts line 112): leftmost, non-overlapping
splitting on the two-character separator. -/
def splitOnSep : Str → List Str
  | '_' :: '_' :: cs => [] :: splitOnSep cs
  | c :: cs => consHead c (splitOnSep cs)
  | [] => [[]]

/-- Model of `toolParts.join('__')` (src/model_accessible_files/client.ts
line 113). -/
def joinSep : List Str → Str
  | [] => []
  | [x] => x
  | x :: xs => x ++ sep ++ joinSep xs

/-- Model of the in-container proxy's dispatch parsing
(src/model_accessible_files/client.ts lines 112-113):
`const [serverName, ...toolParts] = toolName.split('__')` followed by
`toolParts.join('__')`. -/
def containerSplit (s : Str) : Str × Str :=
  match splitOnSep s with
  | [] => ([], [])
  | h :: t => (h, joinSep t)

/-- Decides whether a string contains the separator `__` anywhere. -/
def hasSep (s : Str) : Bool := (idxOfSep s).isSome

theorem take_len_append (a b : Str) : (a ++ b).take a.length = a := by
  induction a with
  | nil => rfl
  | cons c cs ih => simp [List.take, ih]

theorem drop_len_append (a b : Str) : (a ++ b).drop a.length = b := by
  induction a with
  | nil => rfl
  | cons c cs ih => simp [List.drop, ih]

theorem splitOnSep_two (cs : Str) : splitOnSep ('_' :: '_' :: cs) = [] :: splitOnSep cs := rfl

theorem startsWithSep_false_of_notsep {c : Char} {cs : Str}
    (h : ∀ cs₁, c = '_' → cs = '_' :: cs₁ → False) : startsWithSep (c :: cs) = false := by
  cases cs with
  | nil => rfl
  | cons d ds =>
    by_cases hc : c = '_'
    · by_cases hd : d = '_'
      · exact ((h ds hc (by rw [hd])).elim)
      · simp [startsWithSep, hc, hd]
    · simp [startsWithSep, hc]

theorem splitOnSep_cons (c : Char) (cs : Str) (h : startsWithSep (c :: cs) = false) :
    splitOnSep (c :: cs) = consHead c (splitOnSep cs) := by
  rw [splitOnSep.eq_def]
  split
  · rename_i heq
    injection heq with h1 h2
    subst h1; subst h2
    simp [startsWithSep] at h
  · rename_i c2 cs2 hcond heq
    injection heq with h1 h2
    subst h1; subst h2
    rfl
  · rename_i heq
    exact (List.cons_ne_nil _ _ heq).elim

theorem splitOnSep_ne_nil (s : Str) : splitOnSep s ≠ [] := by
  induction s using splitOnSep.induct with
  | case1 cs ih => simp [splitOnSep_two]
  | case2 c cs h ih =>
    rw [splitOnSep_cons c cs (startsWithSep_false_of_notsep h)]
    cases splitOnSep cs <;> simp [consHead]
  | case3 => simp [splitOnSep]

theorem joinSep_splitOnSep (s : Str) : joinSep (splitOnSep s) = s := by
  induction s using splitOnSep.induct with
  | case1 cs ih =>
    have hne := splitOnSep_ne_nil cs
    rw [splitOnSep_two]
    cases h : splitOnSep cs with
    | nil => exact absurd h hne
    | cons a l =>
      rw [h] at ih
      simp [joinSep, sep] at ih ⊢
      exact ih
  | case2 c cs h ih =>
    rw [splitOnSep_cons c cs (startsWithSep_false_of_notsep h)]
    cases hsp : splitOnSep cs with
    | nil => exact absurd hsp (splitOnSep_ne_nil cs)
    | cons a l =>
      rw [hsp] at ih
      cases l with
      | nil =>
        simp [joinSep, consHead] at ih ⊢
        exact ih
      | cons b l2 =>
        simp [joinSep, consHead, sep] at ih ⊢
        exact ih
  | case3 => rfl

theorem hasSep_cons_false {c : Char} {cs : Str} (h : hasSep (c :: cs) = false) :
    startsWithSep (c :: cs) = false ∧ hasSep cs = false := by
  unfold hasSep idxOfSep at h
  by_cases hs : startsWithSep (c :: cs)
  · simp [hs] at h
  · simp only [Bool.not_eq_true] at hs
    refine ⟨hs, ?_⟩
    rw [if_neg (by simp [hs])] at h
    unfold hasSep
    cases hi : idxOfSep cs with
    | none => rfl
    | some j => rw [hi] at h; simp at h

theorem idxOfSep_qual (b t : Str) (hb : hasSep b = false) (hl : b.getLast? ≠ some '_') :
    idxOfSep (b ++ sep ++ t) = some b.length := by
  induction b with
  | nil => simp [sep, idxOfSep, startsWithSep]
  | cons c cs ih =>
    obtain ⟨hsw, hcs⟩ := hasSep_cons_false hb
    have hl' : cs.getLast? ≠ some '_' := by
      cases cs with
      | nil => simp
      | cons d ds => rwa [List.getLast?_cons_cons] at hl
    have hswq : startsWithSep (c :: (cs ++ (sep ++ t))) = false := by
      cases cs with
      | nil =>
        have hc : c ≠ '_' := by
          intro hc; exact hl (by simp [hc])
        simp [sep, startsWithSep, hc]
      | cons d ds =>
        simp only [startsWithSep, List.cons_append] at hsw ⊢
        simpa using hsw
    have ih' := ih hcs hl'
    simp only [List.cons_append, List.append_assoc] at ih' ⊢
    simp [idxOfSep, hswq, ih']

theorem hostSplit_qual (b t : Str) (hb : hasSep b = false) (hl : b.getLast? ≠ some '_') :
    hostSplit (b ++ sep ++ t) = (b, t) := by
  have h1 : (b ++ sep ++ t).take b.length = b := by
    rw [List.append_assoc, take_len_append]
  have h2 : (b ++ sep ++ t).drop (b.length + 2) = t := by
    have hlen : (b ++ sep).length = b.length + 2 := by simp [sep]
    rw [← hlen, drop_len_append]
  unfold hostSplit
  rw [idxOfSep_qual b t hb hl]
  show ((b ++ sep ++ t).take b.length, (b ++ sep ++ t).drop (b.length + 2)) = (b, t)
  rw [h1, h2]

theorem splitOnSep_idx (s : Str) (i : Nat) (h : idxOfSep s = some i) :
    splitOnSep s = s.take i :: splitOnSep (s.drop (i + 2)) := by
  induction s using splitOnSep.induct generalizing i with
  | case1 cs ih =>
    have hsw : startsWithSep ('_' :: '_' :: cs) = true := by simp [startsWithSep]
    rw [show idxOfSep ('_' :: '_' :: cs) = some 0 by simp [idxOfSep, hsw]] at h
    injection h with h0
    subst h0
    simp [splitOnSep_two]
  | case2 c cs hno ih =>
    have hsw := startsWithSep_false_of_notsep hno
    rw [show idxOfSep (c :: cs) = (idxOfSep cs).map (· + 1) by simp [idxOfSep, hsw]] at h
    cases hj : idxOfSep cs with
    | none => rw [hj] at h; simp at h
    | some j =>
      rw [hj] at h
      simp only [Option.map_some'] at h
      injection h with h0
      subst h0
      rw [splitOnSep_cons c cs hsw, ih j hj]
      simp [consHead, List.take, List.drop]
  | case3 => simp [idxOfSep] at h

theorem containerSplit_eq_hostSplit (s : Str) (h : hasSep s = true) :
    containerSplit s = hostSplit s := by
  obtain ⟨i, hi⟩ := Option.isSome_iff_exists.mp h
  unfold containerSplit hostSplit
  rw [splitOnSep_idx s i hi, hi]
  show (s.take i, joinSep (splitOnSep (s.drop (i + 2)))) = (s.take i, s.drop (i + 2))
  rw [joinSep_splitOnSep]

theorem hasSep_qual (b t : Str) : hasSep (b ++ sep ++ t) = true := by
  induction b with
  | nil =>
    simp [sep, hasSep, idxOfSep, startsWithSep]
  | cons c cs ih =>
    unfold hasSep at ih ⊢
    simp only [List.cons_append, List.append_assoc] at ih ⊢
    rw [show idxOfSep (c :: (cs ++ (sep ++ t)))
        = if startsWithSep (c :: (cs ++ (sep ++ t))) then some 0
          else (idxOfSep (cs ++ (sep ++ t))).map (· + 1) from rfl]
    by_cases hs : startsWithSep (c :: (cs ++ (sep ++ t)))
    · simp [hs]
    · rw [if_neg hs]
      cases hx : idxOfSep (cs ++ (sep ++ t)) with
      | none => rw [hx] at ih; simp at ih
      | some j => simp

theorem containerSplit_qual (b t : Str) (hb : hasSep b = false) (hl : b.getLast? ≠ some '_') :
    containerSplit (b ++ sep ++ t) = (b, t) := by
  rw [containerSplit_eq_hostSplit _ (hasSep_qual b t)]
  exact hostSplit_qual b t hb hl

/-- C1 (amended): for every qualified name `b ++ "__" ++ t` where the backend
name `b` contains no `"__"` AND does not end with `'_'`, both the host proxy's
`indexOf`/`slice` parsing and the in-container proxy's `split`/`join` parsing
recover the pair `(b, t)`; moreover, on every input that contains the
separator at all, the two implementations agree (both split at the first
occurrence of `"__"`). -/
theorem C1_theorem :
    (∀ b t : Str, hasSep b = false → b.getLast? ≠ some '_' →
      hostSplit (b ++ sep ++ t) = (b, t) ∧ containerSplit (b ++ sep ++ t) = (b, t))
    ∧ (∀ s : Str, hasSep s = true → containerSplit s = hostSplit s) :=
  ⟨fun b t hb hl => ⟨hostSplit_qual b t hb hl, containerSplit_qual b t hb hl⟩,
   containerSplit_eq_hostSplit⟩

/-- C1 witness: at the spec's own example, backend `"x"` with raw tool name
`"a__b"`, both proxies recover `("x", "a__b")` from `"x__a__b"`. -/
theorem C1_witness :
    hostSplit (str "x" ++ sep ++ str "a__b") = (str "x", str "a__b")
    ∧ containerSplit (str "x" ++ sep ++ str "a__b") = (str "x", str "a__b") :=
  C1_theorem.1 (str "x") (str "a__b") (by decide) (by decide)

/-- C1 counterexample: the claim as stated quantifies over every backend name
containing no `"__"`. The backend name `"x_"` contains no `"__"`, yet for raw
tool `"a"` the qualified name is `"x___a"` whose FIRST `"__"` occurrence is at
index 1, so neither proxy recovers `("x_", "a")`: both return `("x", "_a")`. -/
theorem C1_counterexample :
    hasSep (str "x_") = false
    ∧ hostSplit (str "x_" ++ sep ++ str "a") = (str "x", str "_a")
    ∧ containerSplit (str "x_" ++ sep ++ str "a") = (str "x", str "_a")
    ∧ (str "x", str "_a") ≠ (str "x_", str "a") := by decide

/-- Model of JavaScript `s.startsWith(p)`: `isStart p s` is true when `p` is
an initial segment of `s`. -/
def isStart : Str → Str → Bool
  | [], _ => true
  | _ :: _, [] => false
  | p :: ps, c :: cs => p == c && isStart ps cs

/-- Model of JavaScript `s.includes(p)`: true when `p` occurs contiguously
anywhere in `s`. -/
def strContains : Str → Str → Bool
  | [], pat => isStart pat []
  | c :: cs, pat => isStart pat (c :: cs) || strContains cs pat

/-- Model of JavaScript `s.toLowerCase()` (ASCII as used by the repository). -/
def lowerStr (s : Str) : Str := s.map Char.toLower

theorem isStart_iff (p s : Str) : isStart p s = true ↔ ∃ r, s = p ++ r := by
  induction p generalizing s with
  | nil => simp [isStart]
  | cons a ps ih =>
    cases s with
    | nil => simp [isStart]
    | cons c cs =>
      simp only [isStart, Bool.and_eq_true, beq_iff_eq, ih, List.cons_append,
        List.cons.injEq, List.cons_eq_cons]
      constructor
      · rintro ⟨rfl, r, rfl⟩; exact ⟨r, rfl, rfl⟩
      · rintro ⟨r, rfl, rfl⟩; exact ⟨rfl, r, rfl⟩

theorem strContains_iff (s p : Str) : strContains s p = true ↔ ∃ u v, s = u ++ p ++ v := by
  induction s with
  | nil =>
    simp only [strContains, isStart_iff]
    constructor
    · rintro ⟨r, hr⟩
      exact ⟨[], r, by simpa using hr⟩
    · rintro ⟨u, v, huv⟩
      have hu : u = [] := by
        cases u with
        | nil => rfl
        | cons a l => simp at huv
      subst hu
      exact ⟨v, by simpa using huv⟩
  | cons c cs ih =>
    simp only [strContains, Bool.or_eq_true, isStart_iff, ih]
    constructor
    · rintro (⟨r, hr⟩ | ⟨u, v, huv⟩)
      · exact ⟨[], r, by simpa using hr⟩
      · exact ⟨c :: u, v, by simp [huv]⟩
    · rintro ⟨u, v, huv⟩
      cases u with
      | nil =>
        exact Or.inl ⟨v, by simpa using huv⟩
      | cons a l =>
        simp only [List.cons_append, List.cons.injEq] at huv
        exact Or.inr ⟨l, v, huv.2⟩

/-- Tool record as stored in the proxy's catalog `Map<string, Tool>`
(src/src/mcp-proxy/server.ts line 20): the namespaced name, the decorated
description, and the input schema (modelled by its serialized JSON text). -/
structure ToolRec where
  name : Str
  description : Str
  schema : Str
deriving DecidableEq, Repr

/-- Catalog is the value list of the `tools` map, in insertion order;
`catFind` models `Map.get` by key and `mapSet` models `Map.set`
(replace the entry with the same key, else append). -/
abbrev Catalog := List ToolRec

/-- Model of `this.tools.get(key)`. -/
def catFind : Catalog → Str → Option ToolRec
  | [], _ => none
  | r :: rest, k => if r.name = k then some r else catFind rest k

/-- Model of `this.tools.set(tr.name, tr)`: replaces the entry holding the
same key in place, or appends a fresh entry. -/
def mapSet : Catalog → ToolRec → Catalog
  | [], tr => [tr]
  | r :: rest, tr => if r.name = tr.name then tr :: rest else r :: mapSet rest tr

/-- Raw tool as returned by a backend's `list_tools`. -/
structure RawTool where
  name : Str
  description : Str
  schema : Str
deriving DecidableEq, Repr

/-- Backend that reached the `listTools` stage of discovery: its configured
name and the raw tools it returned. -/
structure Backend where
  name : Str
  tools : List RawTool
deriving DecidableEq, Repr

/-- The qualified tool name `serverConfig.name + "__" + tool.name`
(src/src/mcp-proxy/server.ts line 107). -/
def qual (server tool : Str) : Str := server ++ sep ++ tool

/-- The decorated description `"[" + serverConfig.name + "] " + description`
(src/src/mcp-proxy/server.ts line 111). -/
def decorate (server desc : Str) : Str := str "[" ++ server ++ str "] " ++ desc

/-- The catalog entry registered for one raw tool of one backend
(src/src/mcp-proxy/server.ts lines 106-113). -/
def mkEntry (server : Str) (rt : RawTool) : ToolRec :=
  ⟨qual server rt.name, decorate server rt.description, rt.schema⟩

/-- Model of one iteration of `connectBackendServers`
(src/src/mcp-proxy/server.ts lines 63-119): a backend whose name contains
`"__"` throws inside the try block and is skipped; otherwise each raw tool is
`Map.set` into the catalog under its qualified name. -/
def addBackend (cat : Catalog) (b : Backend) : Catalog :=
  if hasSep b.name then cat
  else b.tools.foldl (fun c rt => mapSet c (mkEntry b.name rt)) cat

/-- Model of the whole discovery loop of `connectBackendServers`, starting
from the empty catalog. The in-container `ToolProxy.connectBackendServers`
(src/model_accessible_files/client.ts lines 137-227) performs the same
registration. -/
def buildCatalog (cfg : List Backend) : Catalog := cfg.foldl addBackend []

theorem catFind_mapSet (cat : Catalog) (tr : ToolRec) (k : Str) :
    catFind (mapSet cat tr) k = if k = tr.name then some tr else catFind cat k := by
  induction cat with
  | nil =>
    by_cases h : k = tr.name
    · simp [mapSet, catFind, h]
    · have h' : ¬ tr.name = k := fun hh => h hh.symm
      simp [mapSet, catFind, h, h']
  | cons r rest ih =>
    by_cases h1 : r.name = tr.name
    · by_cases h2 : k = tr.name
      · simp [mapSet, h1, catFind, h2]
      · have h3 : ¬ r.name = k := by rw [h1]; exact fun hh => h2 hh.symm
        have h4 : ¬ tr.name = k := fun hh => h2 hh.symm
        simp [mapSet, h1, catFind, h2, h3, h4]
    · by_cases h2 : r.name = k
      · have h3 : ¬ k = tr.name := fun hh => h1 (h2.symm ▸ hh)
        simp [mapSet, h1, catFind, h2, h3]
      · simp [mapSet, h1, catFind, h2, ih]

theorem mem_keys_mapSet {cat : Catalog} {tr : ToolRec} {k : Str}
    (h : k ∈ (mapSet cat tr).map ToolRec.name) : k = tr.name ∨ k ∈ cat.map ToolRec.name := by
  induction cat with
  | nil => simpa [mapSet] using h
  | cons r rest ih =>
    by_cases h1 : r.name = tr.name
    · simp only [mapSet, if_pos h1, List.map_cons, List.mem_cons] at h
      rcases h with h | h
      · exact Or.inl h
      · exact Or.inr (by simp [h])
    · simp only [mapSet, if_neg h1, List.map_cons, List.mem_cons] at h
      rcases h with h | h
      · exact Or.inr (by simp [h])
      · rcases ih h with h' | h'
        · exact Or.inl h'
        · exact Or.inr (by simp [h'])

theorem nodup_keys_mapSet {cat : Catalog} {tr : ToolRec}
    (h : (cat.map ToolRec.name).Nodup) : ((mapSet cat tr).map ToolRec.name).Nodup := by
  induction cat with
  | nil => simp [mapSet]
  | cons r rest ih =>
    simp only [List.map_cons, List.nodup_cons] at h
    by_cases h1 : r.name = tr.name
    · simp only [mapSet, if_pos h1, List.map_cons, List.nodup_cons]
      exact ⟨h1 ▸ h.1, h.2⟩
    · simp only [mapSet, if_neg h1, List.map_cons, List.nodup_cons]
      refine ⟨?_, ih h.2⟩
      intro hmem
      rcases mem_keys_mapSet hmem with he | he
      · exact h1 he
      · exact h.1 he

/-- The last registration for a given key in a sequence of `Map.set` writes. -/
def lastWrite : List ToolRec → Str → Option ToolRec
  | [], _ => none
  | tr :: rest, k =>
    match lastWrite rest k with
    | some r => some r
    | none => if tr.name = k then some tr else none

theorem catFind_foldl_mapSet (ws : List ToolRec) (cat : Catalog) (k : Str) :
    catFind (ws.foldl mapSet cat) k
      = match lastWrite ws k with
        | some r => some r
        | none => catFind cat k := by
  induction ws generalizing cat with
  | nil => simp [lastWrite]
  | cons w rest ih =>
    simp only [List.foldl_cons, lastWrite]
    rw [ih (mapSet cat w)]
    cases hl : lastWrite rest k with
    | some r => simp
    | none =>
      simp only
      rw [catFind_mapSet]
      by_cases h : k = w.name
      · simp [h]
      · have h' : ¬ w.name = k := fun hh => h hh.symm
        simp [h, h']

theorem lastWrite_eq_none {ws : List ToolRec} {k : Str} (h : k ∉ ws.map ToolRec.name) :
    lastWrite ws k = none := by
  induction ws with
  | nil => rfl
  | cons w rest ih =>
    simp only [List.map_cons, List.mem_cons, not_or] at h
    have h1 : ¬ w.name = k := fun hh => h.1 hh.symm
    simp [lastWrite, ih h.2, h1]

theorem lastWrite_mem {ws : List ToolRec} {tr : ToolRec}
    (hnd : (ws.map ToolRec.name).Nodup) (hmem : tr ∈ ws) :
    lastWrite ws tr.name = some tr := by
  induction ws with
  | nil => simp at hmem
  | cons w rest ih =>
    simp only [List.map_cons, List.nodup_cons] at hnd
    rcases List.mem_cons.mp hmem with rfl | hmem'
    · rw [lastWrite, lastWrite_eq_none hnd.1]
      simp
    · rw [lastWrite, ih hnd.2 hmem']

/-- The flattened list of catalog registrations performed during discovery,
in order: backends with an illegal name contribute nothing. -/
def allEntries : List Backend → List ToolRec
  | [] => []
  | b :: rest =>
    (if hasSep b.name then [] else b.tools.map (mkEntry b.name)) ++ allEntries rest

theorem buildCatalog_eq_foldl (cfg : List Backend) :
    buildCatalog cfg = (allEntries cfg).foldl mapSet [] := by
  suffices h : ∀ cat, cfg.foldl addBackend cat = (allEntries cfg).foldl mapSet cat from h []
  induction cfg with
  | nil => intro cat; rfl
  | cons b rest ih =>
    intro cat
    simp only [List.foldl_cons, allEntries, List.foldl_append]
    rw [ih]
    congr 1
    unfold addBackend
    by_cases hb : hasSep b.name
    · simp [hb]
    · simp [List.foldl_map, hb]

theorem mem_allEntries {cfg : List Backend} {b : Backend} {rt : RawTool}
    (hb : b ∈ cfg) (hleg : hasSep b.name = false) (hrt : rt ∈ b.tools) :
    mkEntry b.name rt ∈ allEntries cfg := by
  induction cfg with
  | nil => simp at hb
  | cons b0 rest ih =>
    rcases List.mem_cons.mp hb with rfl | hb'
    · unfold allEntries
      rw [if_neg (by simp [hleg])]
      exact List.mem_append_left _ (List.mem_map_of_mem _ hrt)
    · exact List.mem_append_right _ (ih hb')

theorem keys_allEntries {cfg : List Backend} {k : Str}
    (h : k ∈ (allEntries cfg).map ToolRec.name) :
    ∃ b, b ∈ cfg ∧ hasSep b.name = false ∧ ∃ rt, rt ∈ b.tools ∧ k = qual b.name rt.name := by
  induction cfg with
  | nil => simp [allEntries] at h
  | cons b0 rest ih =>
    simp only [allEntries, List.map_append, List.mem_append] at h
    rcases h with h | h
    · by_cases hb : hasSep b0.name
      · rw [if_pos hb] at h
        simp at h
      · rw [if_neg hb] at h
        simp only [List.map_map, List.mem_map, Function.comp] at h
        obtain ⟨rt, hrt, hk⟩ := h
        exact ⟨b0, List.mem_cons_self _ _, by simpa using hb, rt, hrt, hk.symm⟩
    · obtain ⟨b, hbmem, hleg, rt, hrt, hk⟩ := ih h
      exact ⟨b, List.mem_cons_of_mem _ hbmem, hleg, rt, hrt, hk⟩

theorem qual_left_inj (a : Str) : Function.Injective (qual a) := by
  intro t t' h
  unfold qual at h
  have h2 := congrArg (List.drop (a ++ sep).length) h
  rwa [drop_len_append, drop_len_append] at h2

theorem qual_inj {a a' t t' : Str} (ha : hasSep a = false) (hla : a.getLast? ≠ some '_')
    (ha' : hasSep a' = false) (hla' : a'.getLast? ≠ some '_')
    (h : qual a t = qual a' t') : a = a' ∧ t = t' := by
  have h1 := hostSplit_qual a t ha hla
  have h2 := hostSplit_qual a' t' ha' hla'
  unfold qual at h
  rw [h, h2] at h1
  have h3 := Prod.mk.inj h1
  exact ⟨h3.1.symm, h3.2.symm⟩

theorem nodup_keys_allEntries {cfg : List Backend}
    (hnames : (cfg.map Backend.name).Nodup)
    (hleg : ∀ b ∈ cfg, hasSep b.name = false ∧ b.name.getLast? ≠ some '_')
    (hraw : ∀ b ∈ cfg, (b.tools.map RawTool.name).Nodup) :
    ((allEntries cfg).map ToolRec.name).Nodup := by
  induction cfg with
  | nil => simp [allEntries]
  | cons b0 rest ih =>
    simp only [List.map_cons, List.nodup_cons] at hnames
    have ihres := ih hnames.2 (fun b hb => hleg b (List.mem_cons_of_mem _ hb))
      (fun b hb => hraw b (List.mem_cons_of_mem _ hb))
    have hleg0 := hleg b0 (List.mem_cons_self _ _)
    simp only [allEntries, List.map_append]
    refine List.Nodup.append ?_ ihres ?_
    · rw [if_neg (by simp [hleg0.1])]
      rw [List.map_map]
      have heq : (ToolRec.name ∘ mkEntry b0.name) = (fun rt => qual b0.name rt.name) := rfl
      rw [heq]
      have : (fun rt : RawTool => qual b0.name rt.name)
          = (qual b0.name) ∘ RawTool.name := rfl
      rw [this, ← List.map_map]
      exact (hraw b0 (List.mem_cons_self _ _)).map (qual_left_inj b0.name)
    · intro k hk1 hk2
      rw [if_neg (by simp [hleg0.1])] at hk1
      simp only [List.map_map, List.mem_map, Function.comp] at hk1
      obtain ⟨rt, hrt, hk⟩ := hk1
      obtain ⟨b, hbmem, hbleg, rt', hrt', hk'⟩ := keys_allEntries hk2
      have hlegb := hleg b (List.mem_cons_of_mem _ hbmem)
      have hq : qual b0.name rt.name = qual b.name rt'.name := hk.trans hk'
      have := (qual_inj hleg0.1 hleg0.2 hlegb.1 hlegb.2 hq).1
      exact hnames.1 (this ▸ List.mem_map_of_mem Backend.name hbmem)

theorem nodup_keys_buildCatalog (cfg : List Backend) :
    ((buildCatalog cfg).map ToolRec.name).Nodup := by
  rw [buildCatalog_eq_foldl]
  have h : ∀ (ws : List ToolRec) (cat : Catalog), (cat.map ToolRec.name).Nodup →
      (((ws.foldl mapSet cat)).map ToolRec.name).Nodup := by
    intro ws
    induction ws with
    | nil => intro cat h; exact h
    | cons w rest ih => intro cat h; exact ih _ (nodup_keys_mapSet h)
  exact h _ [] (by simp)

/-- C2 (amended): after discovery over a configuration whose backend names are
distinct, legal (non-empty, containing no `"__"`) and — the amendment forced by
the counterexample — do not end with `'_'`, and whose per-backend raw tool
names are distinct, the catalog maps every qualified name
`b.name ++ "__" ++ t` to an entry whose description is
`"[" ++ b.name ++ "] "` prepended to the backend-supplied description.
The second conjunct, that no two catalog entries share a qualified name, holds
unconditionally because the catalog is keyed by qualified name. -/
theorem C2_theorem (cfg : List Backend)
    (hnames : (cfg.map Backend.name).Nodup)
    (hleg : ∀ b ∈ cfg, hasSep b.name = false ∧ b.name ≠ [] ∧ b.name.getLast? ≠ some '_')
    (hraw : ∀ b ∈ cfg, (b.tools.map RawTool.name).Nodup) :
    (∀ b ∈ cfg, ∀ rt ∈ b.tools,
      catFind (buildCatalog cfg) (qual b.name rt.name)
        = some ⟨qual b.name rt.name, decorate b.name rt.description, rt.schema⟩)
    ∧ ((buildCatalog cfg).map ToolRec.name).Nodup := by
  have hleg' : ∀ b ∈ cfg, hasSep b.name = false ∧ b.name.getLast? ≠ some '_' :=
    fun b hb => ⟨(hleg b hb).1, (hleg b hb).2.2⟩
  have hnodupKeys := nodup_keys_allEntries hnames hleg' hraw
  constructor
  · intro b hb rt hrt
    rw [buildCatalog_eq_foldl, catFind_foldl_mapSet]
    have hmem : mkEntry b.name rt ∈ allEntries cfg :=
      mem_allEntries hb (hleg' b hb).1 hrt
    have hlw := lastWrite_mem hnodupKeys hmem
    rw [show (mkEntry b.name rt).name = qual b.name rt.name from rfl] at hlw
    rw [hlw]
    rfl
  · exact nodup_keys_buildCatalog cfg

/-- Concrete configuration used by the C2 witness. -/
def cfgBashOnly : List Backend :=
  [⟨str "bash", [⟨str "read_file", str "Reads a file", str "s"⟩]⟩]

/-- C2 witness: a single backend `bash` with one raw tool `read_file` yields a
catalog entry keyed `bash__read_file` with description `[bash] Reads a file`. -/
theorem C2_witness :
    catFind (buildCatalog cfgBashOnly) (qual (str "bash") (str "read_file"))
      = some ⟨qual (str "bash") (str "read_file"),
          decorate (str "bash") (str "Reads a file"), str "s"⟩ :=
  (C2_theorem cfgBashOnly (by decide) (by decide) (by decide)).1
    ⟨str "bash", [⟨str "read_file", str "Reads a file", str "s"⟩]⟩ (by decide)
    ⟨str "read_file", str "Reads a file", str "s"⟩ (by decide)

/-- C2 counterexample: backends named `"x"` and `"x_"` are both legal per the
claim (non-empty, no `"__"`), yet raw tool `"_a"` of `"x"` and raw tool `"a"`
of `"x_"` collide on the qualified name `"x___a"`. The later registration
overwrites the earlier one in the `Map`, so the entry under backend `"x"`'s
qualified name carries backend `"x_"`'s decorated description `"[x_] d2"`,
not `"[x] d1"` as the claim requires. -/
theorem C2_counterexample :
    hasSep (str "x") = false ∧ hasSep (str "x_") = false
    ∧ qual (str "x") (str "_a") = qual (str "x_") (str "a")
    ∧ (catFind (buildCatalog [⟨str "x", [⟨str "_a", str "d1", str "s1"⟩]⟩,
          ⟨str "x_", [⟨str "a", str "d2", str "s2"⟩]⟩])
        (qual (str "x") (str "_a"))).map ToolRec.description
      = some (decorate (str "x_") (str "d2"))
    ∧ decorate (str "x_") (str "d2") ≠ decorate (str "x") (str "d1") := by decide

/-- Hex digit used by the JSON control-character escape `\u00XX`. -/
def hexDigit (n : Nat) : Char := if n < 10 then Char.ofNat (48 + n) else Char.ofNat (87 + n)

/-- Character escaping as performed by `JSON.stringify` on string values. -/
def jsonEscapeChar (c : Char) : Str :=
  if c = '"' then ['\\', '"']
  else if c = '\\' then ['\\', '\\']
  else if c = Char.ofNat 8 then ['\\', 'b']
  else if c = Char.ofNat 9 then ['\\', 't']
  else if c = Char.ofNat 10 then ['\\', 'n']
  else if c = Char.ofNat 12 then ['\\', 'f']
  else if c = Char.ofNat 13 then ['\\', 'r']
  else if c.toNat < 32 then ['\\', 'u', '0', '0', hexDigit (c.toNat / 16), hexDigit (c.toNat % 16)]
  else [c]

/-- Escapes every character of a string for JSON serialization. -/
def escapeAll : Str → Str
  | [] => []
  | c :: cs => jsonEscapeChar c ++ escapeAll cs

/-- JSON quoting of a string value: surrounding quotes plus escaping. -/
def jsonQuote (s : Str) : Str := '"' :: (escapeAll s ++ ['"'])

/-- Model of `JSON.stringify({name, description, inputSchema})` built in
`handleListToolNames` (src/src/mcp-proxy/meta-tool-proxy.ts lines 171-175):
the serialized text a keyword is matched against. The input schema is already
modelled by its serialized text, so it is spliced in unquoted. -/
def toolSearchText (t : ToolRec) : Str :=
  str "\x7b\"name\":" ++ jsonQuote t.name
    ++ str ",\"description\":" ++ jsonQuote t.description
    ++ str ",\"inputSchema\":" ++ t.schema ++ str "\x7d"

/-- Keyword test exactly as the code computes it
(src/src/mcp-proxy/meta-tool-proxy.ts line 176): the serialized tool text is
lowercased AND each keyword is lowercased (`keyword.toLowerCase()`) before the
containment test; a tool is retained when ANY keyword matches. -/
def keywordHit (t : ToolRec) (kws : List Str) : Bool :=
  kws.any (fun k => strContains (lowerStr (toolSearchText t)) (lowerStr k))

/-- Keyword test following the claim's words literally ("its lowercased
name/description/schema text contains at least one keyword"): here the keyword
is NOT lowercased. This definition exists only to compare the claim's wording
against the code. -/
def keywordHitClaim (t : ToolRec) (kws : List Str) : Bool :=
  kws.any (fun k => strContains (lowerStr (toolSearchText t)) k)

/-- Server filter shared by `handleListToolNames` and `handleSearchTools`
(src/src/mcp-proxy/meta-tool-proxy.ts lines 82-85 and 163-166): keep tools
whose name starts with `server + "__"`. -/
def serverFiltered (cat : Catalog) (server : Option Str) : Catalog :=
  match server with
  | some s => cat.filter (fun t => isStart (s ++ sep) t.name)
  | none => cat

/-- The filtered tool list of `handleListToolNames` before truncation
(src/src/mcp-proxy/meta-tool-proxy.ts lines 161-177): server filter, then —
when the keyword list is non-empty — the keyword filter. -/
def listFiltered (cat : Catalog) (server : Option Str) (kws : List Str) : Catalog :=
  if kws.isEmpty then serverFiltered cat server
  else (serverFiltered cat server).filter (fun t => keywordHit t kws)

/-- Result shape of `list_tool_names` (meta-tool-proxy.ts lines 184-196). -/
structure ListToolNamesResult where
  tool_names : List Str
  total : Nat
  returned : Nat
  truncated : Bool
deriving DecidableEq, Repr

/-- Model of `MetaToolProxy.handleListToolNames`
(src/src/mcp-proxy/meta-tool-proxy.ts lines 157-197): `limit` defaults to 100
via `args.limit ?? 100`, the filtered list is truncated by `slice(0, limit)`,
`total` is the filtered length, `returned` the number of names emitted, and
`truncated` compares the filtered length against the limit. -/
def handleListToolNames (cat : Catalog) (server : Option Str) (kws : List Str)
    (limit : Option Nat) : ListToolNamesResult :=
  let L := limit.getD 100
  let ts := listFiltered cat server kws
  let names := (ts.take L).map ToolRec.name
  ⟨names, ts.length, names.length, decide (ts.length > L)⟩

/-- Model of `selectToolsWithSubagent`
(src/src/mcp-proxy/meta-tool-proxy.ts lines 115-155). The selector's reply is
an oracle parameter: `some names` when the LLM reply parsed to a JSON array,
`none` when the API call failed or the reply was unparsable, in which case the
code falls back to all candidate tool names. -/
def selectToolsWithSubagent (candidates : Catalog) (reply : Option (List Str)) : List Str :=
  match reply with
  | some names => names
  | none => candidates.map ToolRec.name

/-- The selected tools of `handleSearchTools` before the limit is applied
(src/src/mcp-proxy/meta-tool-proxy.ts line 91): candidates whose name is
included in the selector's reply. -/
def searchSelected (cat : Catalog) (server : Option Str) (reply : Option (List Str)) : Catalog :=
  (serverFiltered cat server).filter
    (fun t => decide (t.name ∈ selectToolsWithSubagent (serverFiltered cat server) reply))

/-- Result shape of `search_tools` (meta-tool-proxy.ts lines 96-103): only a
`total` count and the list of records — no truncation indicator. -/
structure SearchResult where
  total : Nat
  tools : List (Str × Str × Str)
deriving DecidableEq, Repr

/-- Projection of a tool record to the `{name, description, inputSchema}`
triple emitted by `search_tools` (meta-tool-proxy.ts lines 98-102). -/
def projTool (t : ToolRec) : Str × Str × Str := (t.name, t.description, t.schema)

/-- Model of `MetaToolProxy.handleSearchTools`
(src/src/mcp-proxy/meta-tool-proxy.ts lines 75-113). JavaScript's
`limit ? selectedTools.slice(0, limit) : selectedTools` treats a limit of 0 as
falsy, so truncation applies only for a present non-zero limit; `total` is the
length of the TRUNCATED list. -/
def handleSearchTools (cat : Catalog) (server : Option Str) (limit : Option Nat)
    (reply : Option (List Str)) : SearchResult :=
  let selected := searchSelected cat server reply
  let finalTools := match limit with
    | some L => if L = 0 then selected else selected.take L
    | none => selected
  ⟨finalTools.length, finalTools.map projTool⟩

theorem serverFiltered_mem (cat : Catalog) (server : Option Str) (t : ToolRec) :
    t ∈ serverFiltered cat server
      ↔ t ∈ cat ∧ ∀ s, server = some s → ∃ r, t.name = (s ++ sep) ++ r := by
  cases server with
  | none => simp [serverFiltered]
  | some s =>
    simp only [serverFiltered, List.mem_filter, isStart_iff, Option.some.injEq]
    constructor
    · rintro ⟨h1, h2⟩
      exact ⟨h1, fun s' hs' => hs' ▸ h2⟩
    · rintro ⟨h1, h2⟩
      exact ⟨h1, h2 s rfl⟩

/-- C5 (amended): `list_tool_names` returns exactly the first at-most-`L`
elements of the filtered list (`L` defaulting to 100), `total` is the filtered
length, `returned` the number of names emitted, `truncated` holds iff the
filtered length exceeds `L`; and membership in the filtered list is: the name
starts with `server ++ "__"` when a server filter is given, and — the
amendment forced by the counterexample — when the keyword list is non-empty,
the lowercased serialized tool text contains at least one keyword compared
case-insensitively (the code lowercases the keyword too). -/
theorem C5_theorem (cat : Catalog) (server : Option Str) (kws : List Str) (limit : Option Nat) :
    (handleListToolNames cat server kws limit).tool_names
        = ((listFiltered cat server kws).take (limit.getD 100)).map ToolRec.name
    ∧ (handleListToolNames cat server kws limit).total = (listFiltered cat server kws).length
    ∧ (handleListToolNames cat server kws limit).returned
        = min (limit.getD 100) (listFiltered cat server kws).length
    ∧ ((handleListToolNames cat server kws limit).truncated = true
        ↔ limit.getD 100 < (listFiltered cat server kws).length)
    ∧ (∀ t ∈ cat, t ∈ listFiltered cat server kws ↔
        ((∀ s, server = some s → ∃ r, t.name = (s ++ sep) ++ r)
         ∧ (kws ≠ [] →
              ∃ k ∈ kws, ∃ u v, lowerStr (toolSearchText t) = u ++ lowerStr k ++ v))) := by
  refine ⟨rfl, rfl, ?_, ?_, ?_⟩
  · simp [handleListToolNames, List.length_take]
  · simp [handleListToolNames, decide_eq_true_iff]
  · intro t ht
    by_cases hk : kws.isEmpty
    · have hknil : kws = [] := by simpa using hk
      subst hknil
      simp [listFiltered, serverFiltered_mem, ht]
    · have hkne : kws ≠ [] := by simpa using hk
      rw [listFiltered, if_neg hk, List.mem_filter, serverFiltered_mem]
      constructor
      · rintro ⟨⟨_, hsv⟩, hkw⟩
        refine ⟨hsv, fun _ => ?_⟩
        simp only [keywordHit, List.any_eq_true] at hkw
        obtain ⟨k, hkmem, hc⟩ := hkw
        exact ⟨k, hkmem, (strContains_iff _ _).mp hc⟩
      · rintro ⟨hsv, hkw⟩
        refine ⟨⟨ht, hsv⟩, ?_⟩
        simp only [keywordHit, List.any_eq_true]
        obtain ⟨k, hkmem, hc⟩ := hkw hkne
        exact ⟨k, hkmem, (strContains_iff _ _).mpr hc⟩

/-- C5 witness: the amended theorem applied to a concrete catalog and call. -/
theorem C5_witness :
    (handleListToolNames [⟨str "a__foo", str "d", str "s"⟩] none [] none).total
      = (listFiltered [⟨str "a__foo", str "d", str "s"⟩] none []).length :=
  (C5_theorem [⟨str "a__foo", str "d", str "s"⟩] none [] none).2.1

/-- C5 counterexample: with the single keyword `"CAT"` (uppercase) and a tool
whose description contains `"cats"`, the code's filter lowercases the keyword
and retains the tool (total 1), whereas the claim's filter as written — the
lowercased tool text must contain the keyword `"CAT"` itself — discards it
(filtered size 0), so the claimed `total` (the claimed filtered set's size)
disagrees with the code's result. -/
theorem C5_counterexample :
    (handleListToolNames [⟨str "a__foo", str "[a] cats", str "\x7b\x7d"⟩]
        none [str "CAT"] none).total = 1
    ∧ (handleListToolNames [⟨str "a__foo", str "[a] cats", str "\x7b\x7d"⟩]
        none [str "CAT"] none).tool_names = [str "a__foo"]
    ∧ keywordHitClaim ⟨str "a__foo", str "[a] cats", str "\x7b\x7d"⟩ [str "CAT"] = false
    ∧ ([⟨str "a__foo", str "[a] cats", str "\x7b\x7d"⟩].filter
         (fun t => keywordHitClaim t [str "CAT"])).length = 0 := by decide

/-- C6: every record returned by `search_tools` belongs to the server-filtered
candidate set, REGARDLESS of the names the LLM selector returned; and when the
selector fails or returns an unparsable reply (oracle `none`), with no limit
given, the full candidate list is returned. -/
theorem C6_theorem (cat : Catalog) (server : Option Str) (limit : Option Nat)
    (reply : Option (List Str)) :
    (∀ r ∈ (handleSearchTools cat server limit reply).tools,
      ∃ t, t ∈ serverFiltered cat server ∧ r = projTool t)
    ∧ (reply = none → limit = none →
        (handleSearchTools cat server limit reply).tools
          = (serverFiltered cat server).map projTool) := by
  constructor
  · intro r hr
    unfold handleSearchTools at hr
    simp only [List.mem_map] at hr
    obtain ⟨t, ht, rfl⟩ := hr
    refine ⟨t, ?_, rfl⟩
    have hsel : t ∈ searchSelected cat server reply := by
      cases limit with
      | none => exact ht
      | some L =>
        by_cases hL : L = 0
        · simpa [hL] using ht
        · have ht' : t ∈ (searchSelected cat server reply).take L := by
            simpa [hL] using ht
          exact List.mem_of_mem_take ht'
    exact List.mem_of_mem_filter hsel
  · rintro rfl rfl
    unfold handleSearchTools
    simp only
    have hsel : searchSelected cat server none = serverFiltered cat server := by
      unfold searchSelected selectToolsWithSubagent
      rw [List.filter_eq_self]
      intro t ht
      simp [List.mem_map_of_mem ToolRec.name ht]
    rw [hsel]

/-- C6 witness: on a concrete catalog with a failing selector and no limit,
the full candidate list is returned. -/
theorem C6_witness :
    (handleSearchTools [⟨str "b__tool", str "d", str "s"⟩] none none none).tools
      = (serverFiltered [⟨str "b__tool", str "d", str "s"⟩] none).map projTool :=
  (C6_theorem [⟨str "b__tool", str "d", str "s"⟩] none none none).2 rfl rfl

/-- C10: `search_tools` reports `total` equal to the number of records in its
truncated output (equal to the limit whenever a positive limit is smaller than
the selected set), not the selected set's size; and the result carries no
truncation indicator, so a truncated call (2 selected, limit 1) and an
untruncated call (1 selected, limit 1) can produce IDENTICAL results —
a caller cannot tell whether truncation occurred. -/
theorem C10_theorem :
    (∀ (cat : Catalog) (server : Option Str) (limit : Option Nat) (reply : Option (List Str)),
      (handleSearchTools cat server limit reply).total
        = (handleSearchTools cat server limit reply).tools.length)
    ∧ (∀ (cat : Catalog) (server : Option Str) (reply : Option (List Str)) (L : Nat),
        0 < L → L < (searchSelected cat server reply).length →
        (handleSearchTools cat server (some L) reply).total = L)
    ∧ handleSearchTools [⟨str "a__t1", str "d1", str "s1"⟩, ⟨str "a__t2", str "d2", str "s2"⟩]
        none (some 1) (some [str "a__t1", str "a__t2"])
      = handleSearchTools [⟨str "a__t1", str "d1", str "s1"⟩] none (some 1) (some [str "a__t1"])
    ∧ (searchSelected [⟨str "a__t1", str "d1", str "s1"⟩, ⟨str "a__t2", str "d2", str "s2"⟩]
        none (some [str "a__t1", str "a__t2"])).length = 2
    ∧ (searchSelected [⟨str "a__t1", str "d1", str "s1"⟩]
        none (some [str "a__t1"])).length = 1 := by
  refine ⟨?_, ?_, by decide, by decide, by decide⟩
  · intro cat server limit reply
    unfold handleSearchTools
    simp
  · intro cat server reply L hL hlen
    unfold handleSearchTools
    simp only
    rw [if_neg (Nat.pos_iff_ne_zero.mp hL)]
    simp [List.length_take, Nat.min_eq_left (le_of_lt hlen)]

/-- C10 witness: the truncated call from the theorem's third conjunct indeed
reports `total = 1` although two tools were selected. -/
theorem C10_witness :
    (handleSearchTools [⟨str "a__t1", str "d1", str "s1"⟩, ⟨str "a__t2", str "d2", str "s2"⟩]
        none (some 1) (some [str "a__t1", str "a__t2"])).total = 1 :=
  C10_theorem.2.1 [⟨str "a__t1", str "d1", str "s1"⟩, ⟨str "a__t2", str "d2", str "s2"⟩]
    none (some [str "a__t1", str "a__t2"]) 1 (by decide) (by decide)

/-- In-band tool-call result: the text of its single content part and the
`isError` flag. -/
structure CallResult where
  text : Str
  isError : Bool
deriving DecidableEq, Repr

/-- The refusal result returned by `MetaToolProxy.handleToolCall` for any
name that is none of the three meta-tools and not `container__execute`
(src/src/mcp-proxy/meta-tool-proxy.ts lines 63-72). -/
def refusalResult : CallResult :=
  ⟨str "Error: Direct tool execution is not allowed. You must write TypeScript code using container__execute. Import the tool from the generated bindings and call it in your code.",
   true⟩

/-- Dispatch outcome of `MetaToolProxy.handleToolCall`: the three meta-tools
are handled in-process, `container__execute` is forwarded to the container
backend client, and everything else is refused; only the `forwardExecute`
outcome contacts a backend. -/
inductive MetaDispatch where
  | localMeta (which : Str)
  | forwardExecute
  | refuse (r : CallResult)
deriving DecidableEq, Repr

/-- Model of the branch structure of `MetaToolProxy.handleToolCall`
(src/src/mcp-proxy/meta-tool-proxy.ts lines 33-73), in source order. -/
def metaHandleToolCall (name : Str) : MetaDispatch :=
  if name = str "search_tools" then .localMeta name
  else if name = str "list_tool_names" then .localMeta name
  else if name = str "get_tool_definition" then .localMeta name
  else if name = str "container__execute" then .forwardExecute
  else .refuse refusalResult

/-- The `search_tools` meta-tool schema record
(src/src/mcp-proxy/meta-tool-proxy.ts lines 250-270), its input schema given
by its serialized text. -/
def searchToolsMeta : ToolRec :=
  ⟨str "search_tools",
   str "Search for available MCP tools using an AI agent to select the most relevant tools. Returns full tool definitions.",
   str "\x7b\"type\":\"object\",\"properties\":\x7b\"query\":\x7b\"type\":\"string\",\"description\":\"Search query to match against tool names and descriptions (optional)\"\x7d,\"server\":\x7b\"type\":\"string\",\"description\":\"Filter by server name (e.g., \\\"bash\\\", \\\"container\\\") (optional)\"\x7d,\"limit\":\x7b\"type\":\"number\",\"description\":\"Maximum number of results to return (optional, no default limit)\"\x7d\x7d\x7d"⟩

/-- The `list_tool_names` meta-tool schema record
(src/src/mcp-proxy/meta-tool-proxy.ts lines 271-294). -/
def listToolNamesMeta : ToolRec :=
  ⟨str "list_tool_names",
   str "List available tool names. Much faster than search_tools when simple filtering might work. Use get_tool_definition to fetch full tool definitions for specific tools.",
   str "\x7b\"type\":\"object\",\"properties\":\x7b\"server\":\x7b\"type\":\"string\",\"description\":\"Filter by server name (e.g., \\\"bash\\\", \\\"container\\\") (optional)\"\x7d,\"keywords\":\x7b\"type\":\"array\",\"description\":\"Filter tools by keywords found anywhere in the tool name, description, or schema (optional)\",\"items\":\x7b\"type\":\"string\"\x7d\x7d,\"limit\":\x7b\"type\":\"number\",\"description\":\"Maximum number of tool names to return (default: 100)\"\x7d\x7d\x7d"⟩

/-- The `get_tool_definition` meta-tool schema record
(src/src/mcp-proxy/meta-tool-proxy.ts lines 295-308). -/
def getToolDefinitionMeta : ToolRec :=
  ⟨str "get_tool_definition",
   str "Get the full definition (name, description, input schema) for a specific tool.",
   str "\x7b\"type\":\"object\",\"properties\":\x7b\"tool_name\":\x7b\"type\":\"string\",\"description\":\"The full namespaced tool name (e.g., \\\"bash__read_file\\\", \\\"container__execute\\\")\"\x7d\x7d,\"required\":[\"tool_name\"]\x7d"⟩

/-- Model of `MetaToolProxy.getMetaToolSchemas`
(src/src/mcp-proxy/meta-tool-proxy.ts lines 245-317): the three meta-tool
schemas, with the catalog's `container__execute` record pushed at the end
when present. -/
def getMetaToolSchemas (cat : Catalog) : List ToolRec :=
  match catFind cat (str "container__execute") with
  | some ce => [searchToolsMeta, listToolNamesMeta, getToolDefinitionMeta, ce]
  | none => [searchToolsMeta, listToolNamesMeta, getToolDefinitionMeta]

theorem catFind_name {cat : Catalog} {k : Str} {r : ToolRec}
    (h : catFind cat k = some r) : r.name = k := by
  induction cat with
  | nil => simp [catFind] at h
  | cons r0 rest ih =>
    by_cases h0 : r0.name = k
    · rw [catFind, if_pos h0] at h
      injection h with h'
      subst h'
      exact h0
    · rw [catFind, if_neg h0] at h
      exact ih h

/-- C3: when the catalog contains `container__execute` (the script-execution
operation), the façade exposes exactly the four operations `search_tools`,
`list_tool_names`, `get_tool_definition`, `container__execute`; and invoking
any other name yields an in-band `isError` result whose text instructs the
caller to use `container__execute`, without the call being forwarded to any
backend (the `refuse` outcome, unlike `forwardExecute`, contacts no backend
client). -/
theorem C3_theorem (cat : Catalog) (ce : ToolRec)
    (hce : catFind cat (str "container__execute") = some ce) :
    (getMetaToolSchemas cat).map ToolRec.name
      = [str "search_tools", str "list_tool_names", str "get_tool_definition",
         str "container__execute"]
    ∧ (∀ name : Str,
        name ∉ [str "search_tools", str "list_tool_names", str "get_tool_definition",
          str "container__execute"] →
        metaHandleToolCall name = .refuse refusalResult)
    ∧ refusalResult.isError = true
    ∧ strContains refusalResult.text (str "container__execute") = true := by
  refine ⟨?_, ?_, rfl, by decide⟩
  · unfold getMetaToolSchemas
    rw [hce]
    simp only [List.map_cons, List.map_nil]
    rw [catFind_name hce]
    rfl
  · intro name hname
    simp only [List.mem_cons, List.not_mem_nil, or_false, not_or] at hname
    unfold metaHandleToolCall
    rw [if_neg hname.1, if_neg hname.2.1, if_neg hname.2.2.1, if_neg hname.2.2.2]

/-- C3 witness: with a concrete catalog containing `container__execute`, the
four names are exposed and the foreign name `bash__read_file` is refused. -/
theorem C3_witness :
    (getMetaToolSchemas [⟨str "container__execute", str "d", str "s"⟩]).map ToolRec.name
      = [str "search_tools", str "list_tool_names", str "get_tool_definition",
         str "container__execute"]
    ∧ metaHandleToolCall (str "bash__read_file") = .refuse refusalResult := by
  have h := C3_theorem [⟨str "container__execute", str "d", str "s"⟩]
    ⟨str "container__execute", str "d", str "s"⟩ (by decide)
  exact ⟨h.1, h.2.1 (str "bash__read_file") (by decide)⟩

/-- Inputs determining one `runDockerCommand` promise settlement: whether the
spawned process closed before the timeout fired, the stdout and stderr
collected so far, and the close code (`null` modelled as `none`). -/
structure DockerRun where
  closedBeforeTimeout : Bool
  stdout : Str
  stderr : Str
  exitCode : Option Int
deriving DecidableEq, Repr

/-- The resolved value of `runDockerCommand`. -/
structure RunResult where
  stdout : Str
  stderr : Str
  exitCode : Int
deriving DecidableEq, Repr

/-- JavaScript `code || 0` applied to the close code. -/
def jsCodeOrZero : Option Int → Int
  | some c => if c = 0 then 0 else c
  | none => 0

/-- Model of `runDockerCommand`
(src/src/servers/container-runner/index.ts lines 238-281): if the process
closes before the timeout, the promise RESOLVES with stdout, stderr and exit
code; if the timeout fires first, the process is killed and the promise
REJECTS with `Docker command timed out. stderr: <first 500 chars of stderr>` —
despite the adjacent comment "Return what we have so far instead of
rejecting", the collected stdout is not part of the settled value. -/
def runDockerCommand (p : DockerRun) : Except Str RunResult :=
  if p.closedBeforeTimeout then
    .ok ⟨p.stdout, p.stderr, jsCodeOrZero p.exitCode⟩
  else
    .error (str "Docker command timed out. stderr: " ++ p.stderr.take 500)

/-- C4 evaluated at the failing input: a run that collects stdout
`"partial output"` and then hits its timeout settles as a REJECTION whose
message does not contain the partial stdout; no result record (and no
`timed_out` state) is produced, contradicting the claim and the code's own
comment. -/
theorem C4_code_behavior :
    runDockerCommand ⟨false, str "partial output", str "some err", none⟩
      = .error (str "Docker command timed out. stderr: some err")
    ∧ strContains (str "Docker command timed out. stderr: some err")
        (str "partial output") = false := ⟨rfl, by decide⟩

/-- Exit paths of the sandbox-manager process for which handlers are
registered (src/src/servers/container-runner/index.ts lines 355-380). -/
inductive ExitPath where
  | sigint | sigterm | uncaughtException | unhandledRejection | normalExit
deriving DecidableEq, Repr

/-- Observable state for the shutdown model: the global container id (never
cleared by `cleanup`) and the docker commands spawned so far. -/
structure RunnerState where
  globalContainerId : Option Str
  dockerCmds : List (List Str)
deriving DecidableEq, Repr

/-- Model of the `cleanup` closure
(src/src/servers/container-runner/index.ts lines 347-353): when
`globalContainerId` is set it spawns `docker stop` and `docker rm` for that
id; `globalContainerId` is NOT cleared afterwards. -/
def cleanup (s : RunnerState) : RunnerState :=
  match s.globalContainerId with
  | some cid => { s with dockerCmds := s.dockerCmds ++ [[str "stop", cid], [str "rm", cid]] }
  | none => s

/-- Model of the registered handlers (index.ts lines 355-380) combined with
Node's exit semantics: the signal / exception / rejection handlers call
`cleanup` and then `process.exit`, and `process.exit` fires the `'exit'`
event whose handler calls `cleanup` again; a normal exit fires only the
`'exit'` handler. The returned number counts how many times `cleanup` ran. -/
def runExitPath : ExitPath → RunnerState → RunnerState × Nat
  | .normalExit, s => (cleanup s, 1)
  | _, s => (cleanup (cleanup s), 2)

/-- C7 (amended): on every exit path with a live container the cleanup action
runs at least once; it runs exactly once on a normal exit and exactly TWICE on
the signal and exception paths (handler plus re-fired `'exit'` event), and
because `globalContainerId` is never cleared each run re-issues the same
`docker stop` / `docker rm` pair. -/
theorem C7_theorem (p : ExitPath) (cid : Str) :
    1 ≤ (runExitPath p ⟨some cid, []⟩).2
    ∧ (runExitPath p ⟨some cid, []⟩).2 = (if p = .normalExit then 1 else 2)
    ∧ (runExitPath p ⟨some cid, []⟩).1.dockerCmds
        = (List.replicate (runExitPath p ⟨some cid, []⟩).2
            [[str "stop", cid], [str "rm", cid]]).flatten := by
  cases p <;> simp [runExitPath, cleanup, List.replicate]

/-- C7 counterexample: on SIGINT with a live container, `cleanup` executes
twice — not "exactly once" — spawning `docker stop`/`docker rm` twice for the
same container; and a second execution of `cleanup` changes the observable
state again (two more spawned commands), so shutdown is not idempotent in the
claim's sense. -/
theorem C7_counterexample :
    (runExitPath .sigint ⟨some (str "abc"), []⟩).2 = 2
    ∧ (runExitPath .sigint ⟨some (str "abc"), []⟩).1.dockerCmds
        = [[str "stop", str "abc"], [str "rm", str "abc"],
           [str "stop", str "abc"], [str "rm", str "abc"]]
    ∧ cleanup (cleanup ⟨some (str "abc"), []⟩) ≠ cleanup ⟨some (str "abc"), []⟩ := by decide

/-- The three persisted blobs of `FileBasedOAuthProvider`'s per-backend
storage directory (src/unnamed/part_002): `client_info.json`, `tokens.json`
and `code_verifier.txt`, each modelled by its optional content. -/
structure OAuthStore where
  clientInfo : Option Str
  tokens : Option Str
  codeVerifier : Option Str
deriving DecidableEq, Repr

/-- Scope argument of `invalidateCredentials`. -/
inductive InvScope where
  | all | client | tokens | verifier
deriving DecidableEq, Repr

/-- Model of `FileBasedOAuthProvider.saveTokens` (part_002 lines 197-199):
writes `tokens.json`. -/
def saveTokens (s : OAuthStore) (tok : Str) : OAuthStore := { s with tokens := some tok }

/-- Modelled from the spec: the transport's `finishAuth(code)` that completes
a successful authorization flow lives in the protocol SDK, not in this
repository; per the spec ("On success, finalize the flow and persist tokens")
its effect on the provider's storage is persisting tokens via `saveTokens`. -/
def finishAuthFlow (s : OAuthStore) (tok : Str) : OAuthStore := saveTokens s tok

/-- Model of `FileBasedOAuthProvider.invalidateCredentials`
(part_002 lines 251-267): scope `all` removes the whole storage directory —
hence all three files; each other scope unlinks exactly its own file. -/
def invalidateCredentials (s : OAuthStore) : InvScope → OAuthStore
  | .all => ⟨none, none, none⟩
  | .client => { s with clientInfo := none }
  | .tokens => { s with tokens := none }
  | .verifier => { s with codeVerifier := none }

/-- C8: after a successful flow `tokens.json` exists; `invalidate all` removes
all three files; and each scoped invalidation clears exactly its own file,
leaving the other two unchanged. -/
theorem C8_theorem (s : OAuthStore) (tok : Str) :
    ((finishAuthFlow s tok).tokens = some tok)
    ∧ invalidateCredentials s .all = ⟨none, none, none⟩
    ∧ ((invalidateCredentials s .client).clientInfo = none
        ∧ (invalidateCredentials s .client).tokens = s.tokens
        ∧ (invalidateCredentials s .client).codeVerifier = s.codeVerifier)
    ∧ ((invalidateCredentials s .tokens).tokens = none
        ∧ (invalidateCredentials s .tokens).clientInfo = s.clientInfo
        ∧ (invalidateCredentials s .tokens).codeVerifier = s.codeVerifier)
    ∧ ((invalidateCredentials s .verifier).codeVerifier = none
        ∧ (invalidateCredentials s .verifier).clientInfo = s.clientInfo
        ∧ (invalidateCredentials s .verifier).tokens = s.tokens) :=
  ⟨rfl, rfl, ⟨rfl, rfl, rfl⟩, ⟨rfl, rfl, rfl⟩, ⟨rfl, rfl, rfl⟩⟩

/-- JSON schema shapes distinguished by `schemaToTypeString`
(src/src/codegen/generator.ts lines 109-140): a missing/undefined schema, an
object without a `properties` field, an object with properties and a
`required` list (`undefined` modelled as the empty list), an array whose
`items` may be absent, and any other schema carrying its `type` string. -/
inductive Schema where
  | missing
  | objNoProps
  | objWith (props : List (Str × Schema)) (required : List Str)
  | arr (item : Option Schema)
  | prim (ty : Str)

/-- Model of `CodeGenerator.sanitizeFunctionName`
(src/src/codegen/generator.ts lines 93-96):
`name.replace(/[^a-zA-Z0-9_]/g, '_')`. -/
def sanitizeFunctionName (name : Str) : Str :=
  name.map (fun c => if c.isAlphanum || c = '_' then c else '_')

/-- The primitive `typeMap` lookup with its `|| 'any'` fallback
(generator.ts lines 131-139). -/
def typeMapLookup (t : Str) : Str :=
  if t = str "string" then str "string"
  else if t = str "number" then str "number"
  else if t = str "integer" then str "number"
  else if t = str "boolean" then str "boolean"
  else if t = str "null" then str "null"
  else str "any"

mutual

/-- Model of `CodeGenerator.schemaToTypeString`
(src/src/codegen/generator.ts lines 109-140). Property KEYS are emitted
verbatim — the template is `${key}${optional}: ${type}` with `'?'` when the
key is not in `required` — no sanitization is applied to them. -/
def schemaToTypeString : Schema → Str
  | .missing => str "any"
  | .objNoProps => str "Record<string, any>"
  | .objWith props required => str "\x7b " ++ joinProps required props ++ str " \x7d"
  | .arr item => str "Array<" ++ itemTypeString item ++ str ">"
  | .prim ty => typeMapLookup ty

/-- Maps the optional `schema.items`: an absent `items` reaches the
`!schema` check of the recursive call and yields `any`. -/
def itemTypeString : Option Schema → Str
  | some s => schemaToTypeString s
  | none => str "any"

/-- The `.map(...).join('; ')` over object properties
(generator.ts lines 115-121). -/
def joinProps : List Str → List (Str × Schema) → Str
  | _, [] => []
  | req, [(k, v)] =>
      k ++ (if req.contains k then [] else ['?']) ++ str ": " ++ schemaToTypeString v
  | req, (k, v) :: rest =>
      k ++ (if req.contains k then [] else ['?']) ++ str ": " ++ schemaToTypeString v
        ++ str "; " ++ joinProps req rest

end

theorem joinProps_key_verbatim (req : List Str) (props : List (Str × Schema))
    (k : Str) (v : Schema) (h : (k, v) ∈ props) :
    ∃ u w, joinProps req props = u ++ k ++ w := by
  induction props with
  | nil => simp at h
  | cons kv rest ih =>
    rcases List.mem_cons.mp h with rfl | h'
    · cases rest with
      | nil =>
        refine ⟨[], (if req.contains k then [] else ['?']) ++ str ": "
          ++ schemaToTypeString v, ?_⟩
        simp [joinProps, List.append_assoc]
      | cons kv2 rest2 =>
        refine ⟨[], (if req.contains k then [] else ['?']) ++ str ": "
          ++ schemaToTypeString v ++ str "; " ++ joinProps req (kv2 :: rest2), ?_⟩
        simp [joinProps, List.append_assoc]
    · obtain ⟨u, w, hw⟩ := ih h'
      obtain ⟨k0, v0⟩ := kv
      cases rest with
      | nil => simp at h'
      | cons kv2 rest2 =>
        refine ⟨k0 ++ (if req.contains k0 then [] else ['?']) ++ str ": "
          ++ schemaToTypeString v0 ++ str "; " ++ u, w, ?_⟩
        simp only [joinProps, hw]
        simp [List.append_assoc]

/-- C9 (amended): sanitization — every character outside `[a-zA-Z0-9_]`
replaced by `'_'` — is applied by the generator to the emitted FUNCTION (and
file) name, whose output therefore contains only alphanumerics and
underscores; schema property names, by contrast, are emitted verbatim in the
generated type string: every property key occurs literally in the output of
`schemaToTypeString`. -/
theorem C9_theorem :
    (∀ nm : Str, ∀ c ∈ sanitizeFunctionName nm, c.isAlphanum = true ∨ c = '_')
    ∧ (∀ (props : List (Str × Schema)) (req : List Str) (k : Str) (v : Schema),
        (k, v) ∈ props →
        strContains (schemaToTypeString (.objWith props req)) k = true) := by
  constructor
  · intro nm c hc
    unfold sanitizeFunctionName at hc
    rw [List.mem_map] at hc
    obtain ⟨a, _, rfl⟩ := hc
    by_cases h1 : a.isAlphanum
    · by_cases h2 : a = '_' <;> simp [h1, h2]
    · by_cases h2 : a = '_' <;> simp [h1, h2]
  · intro props req k v h
    obtain ⟨u, w, hw⟩ := joinProps_key_verbatim req props k v h
    rw [strContains_iff]
    refine ⟨str "\x7b " ++ u, w ++ str " \x7d", ?_⟩
    rw [show schemaToTypeString (.objWith props req)
        = str "\x7b " ++ joinProps req props ++ str " \x7d" from rfl, hw]
    simp [List.append_assoc]

/-- C9 witness: a valid property key `"a"` is emitted verbatim in the type
string of a concrete object schema. -/
theorem C9_witness :
    strContains (schemaToTypeString (.objWith [(str "a", .prim (str "string"))] []))
      (str "a") = true :=
  C9_theorem.2 [(str "a", .prim (str "string"))] [] (str "a") (.prim (str "string"))
    (List.mem_singleton.mpr rfl)

/-- C9 counterexample: the property name `"foo-bar"` is not a valid
identifier; its sanitized form is `"foo_bar"`, but the emitted field name in
the generated type string is the raw `"foo-bar"` — the sanitized form does
not occur in the output at all, refuting the claim that non-identifier
property names are emitted sanitized. -/
theorem C9_counterexample :
    sanitizeFunctionName (str "foo-bar") = str "foo_bar"
    ∧ schemaToTypeString (.objWith [(str "foo-bar", .prim (str "string"))] [])
        = str "\x7b foo-bar?: string \x7d"
    ∧ strContains (schemaToTypeString (.objWith [(str "foo-bar", .prim (str "string"))] []))
        (str "foo_bar") = false := by decide

end MCPProto
